import Mathlib

/-
  Verification development for the AURtomatic repository.

  The Rust sources (src/dir_diff.rs, src/pkgcheck.rs, src/main.rs,
  src/error.rs) are shallowly embedded below.  Strings are modelled as
  `List Char`; file contents are byte/char lists; the md5 comparison in
  `hash_file_diff` is modelled as content equality (a collision-free
  abstraction of comparing the two hex digests); the mime type returned
  by the external `tree_magic` sniffer is modelled as a field of the
  file entry, since it is derived from the file bytes by an external
  library.
-/

/-- Character constant: space (U+0020). -/
def spaceChar : Char := Char.ofNat 32

/-- Character constant: horizontal tab. -/
def tabChar : Char := Char.ofNat 9

/-- Character constant: line feed. -/
def nlChar : Char := Char.ofNat 10

/-- Character constant: carriage return. -/
def crChar : Char := Char.ofNat 13

/-- Character constant: single quote. -/
def quoteChar : Char := Char.ofNat 39

/-- Character constant: number sign. -/
def hashChar : Char := Char.ofNat 35

/-- Character constant: semicolon. -/
def semiChar : Char := Char.ofNat 59

/-- Character constant: equals sign. -/
def eqChar : Char := Char.ofNat 61

/-- Character constant: underscore. -/
def underscoreChar : Char := Char.ofNat 95

/-- Convenience: the character list of a string literal. -/
def chars (s : String) : List Char := s.data

/-- Model of Rust `char::is_whitespace` restricted to the ASCII
whitespace characters that occur in this development. -/
def isWhiteChar (c : Char) : Bool :=
  c = spaceChar || c = tabChar || c = nlChar || c = crChar

/-- Model of Rust `str::trim`: drop whitespace from both ends. -/
def trimChars (l : List Char) : List Char :=
  ((l.dropWhile isWhiteChar).reverse.dropWhile isWhiteChar).reverse

/-- Fuel-driven worker for `replaceAll`.  The fuel starts at the length
of the list, which is an upper bound on the number of steps. -/
def replaceAllGo (pat rep : List Char) : Nat → List Char → List Char
  | 0, l => l
  | _ + 1, [] => []
  | fuel + 1, c :: rest =>
    match pat with
    | [] => c :: replaceAllGo [] rep fuel rest
    | p :: ps =>
      match List.isPrefixOf (p :: ps) (c :: rest) with
      | true => rep ++ replaceAllGo (p :: ps) rep fuel (List.drop ps.length rest)
      | false => c :: replaceAllGo (p :: ps) rep fuel rest

/-- Model of Rust `str::replace`: replace every non-overlapping,
left-to-right occurrence of `pat` by `rep`. -/
def replaceAll (pat rep l : List Char) : List Char :=
  replaceAllGo pat rep l.length l

/-- Fuel-driven worker for `collapseSpaces`. -/
def collapseGo : Nat → List Char → List Char
  | 0, l => l
  | _ + 1, [] => []
  | fuel + 1, c :: rest =>
    if c = spaceChar then
      spaceChar :: collapseGo fuel (rest.dropWhile (fun x => x = spaceChar))
    else c :: collapseGo fuel rest

/-- Model of the regex replacement of one-or-more spaces by a single
space used in `unwrap_multi_line`. -/
def collapseSpaces (l : List Char) : List Char :=
  collapseGo l.length l

/-- Split a character list at every line feed (the separator itself is
dropped).  Always returns a non-empty list of segments. -/
def splitOnNl : List Char → List (List Char)
  | [] => [[]]
  | c :: rest =>
    if c = nlChar then [] :: splitOnNl rest
    else
      match splitOnNl rest with
      | [] => [[c]]
      | s :: ss => (c :: s) :: ss

/-- Drop a single trailing carriage return, as Rust `str::lines` does
on every produced line. -/
def stripCr (l : List Char) : List Char :=
  if l.getLast? = some crChar then l.dropLast else l

/-- Model of Rust `str::lines`: split at line feeds, strip one trailing
carriage return per line, and do not produce a final empty line for a
trailing line feed. -/
def rustLines (l : List Char) : List (List Char) :=
  match l with
  | [] => []
  | _ :: _ =>
    let parts := (splitOnNl l).map stripCr
    if l.getLast? = some nlChar then parts.dropLast else parts

/-- Boolean `startsWith` on character lists. -/
def startsWithChars (pat l : List Char) : Bool :=
  List.isPrefixOf pat l

/-- Boolean character membership, mirroring Rust `str::contains` for a
one-character pattern. -/
def containsChar : List Char → Char → Bool
  | [], _ => false
  | c :: rest, x => if c = x then true else containsChar rest x

/-- Model of `unwrap_multi_line` from pkgcheck.rs: trim the input,
replace every occurrence of `sub` by a quote followed by a space, then
collapse runs of spaces. -/
def unwrap_multi_line (a : List Char) (sub : List Char) : List Char :=
  collapseSpaces (replaceAll sub [quoteChar, spaceChar] (trimChars a))

/-- Per-line worker of `parse_src_file`: skip blank lines and full-line
comments, split semicolon-separated statements onto their own lines,
and append a line feed after every kept line. -/
def parseLinesGo : List (List Char) → List Char
  | [] => []
  | i :: rest =>
    match trimChars i = [] || startsWithChars [hashChar] (trimChars i) with
    | true => parseLinesGo rest
    | false =>
      (replaceAll [semiChar] [semiChar, nlChar] (trimChars i) ++ [nlChar])
        ++ parseLinesGo rest

/-- Model of `parse_src_file` from pkgcheck.rs: unwrap multi-line
quoted arrays, then normalize line by line. -/
def parse_src_file (src : List Char) : List Char :=
  parseLinesGo (rustLines (unwrap_multi_line src [quoteChar, nlChar]))

example :
    parse_src_file (chars ("validpgpkeys=('key1', 'key2'); echo 1\n"))
      = chars ("validpgpkeys=('key1', 'key2');\n echo 1\n") := by decide

example :
    parse_src_file (chars ("# Maintainer Jojii <Jojii@gmx.net>\necho 1"))
      = chars ("echo 1\n") := by decide

/-- The `ALLOWED_CHANGES` constant of pkgcheck.rs: PKGBUILD variable
names whose values may change in an update. -/
def ALLOWED_CHANGES : List (List Char) :=
  [chars ("license"), chars ("pkgver"), chars ("pkgrel"), chars ("pkgdesc"),
   chars ("arch"), chars ("sha256sums"), chars ("sha512sums"),
   chars ("md5sums"), chars ("optdepends"), chars ("validpgpkeys"),
   chars ("conflicts"), chars ("sha256sums_armv7h"),
   chars ("sha256sums_aarch64"), chars ("sha256sums_x86_64"),
   chars ("depends"), chars ("_pkgname")]

/-- The `ALLOWED_MIMES` constant of pkgcheck.rs. -/
def ALLOWED_MIMES : List (List Char) := [chars ("image/")]

/-- The `UTF8_MIMES` constant of pkgcheck.rs. -/
def UTF8_MIMES : List (List Char) :=
  [chars ("text/"), chars ("application/x-shellscript"),
   chars ("application/x-desktop"), chars ("application/mbox"),
   chars ("application/xml"), chars ("application/json")]

/-- Model of `partial_contains` from pkgcheck.rs: `has` is in `v` or
one of the members of `v` is a proper beginning of `has`. -/
def pcontains (v : List (List Char)) (has : List Char) : Bool :=
  v.any (fun i => i == has || startsWithChars i has)

/-- Model of the `diff::Result` values produced by the external line
differ: `left` is a removed line, `right` an added line, `both` an
unchanged line carried on both sides. -/
inductive Diff
  | left (l : List Char)
  | both (l r : List Char)
  | right (r : List Char)
deriving DecidableEq

/-- Model of `is_diff_empty` from pkgcheck.rs: a diff is empty when it
contains no `Right` (added) line. -/
def is_diff_empty : List Diff → Bool
  | [] => true
  | Diff.right _ :: _ => false
  | _ :: rest => is_diff_empty rest

/-- Model of `Check::check_diff` from pkgcheck.rs: every added line
must contain an equals sign, and the token in front of the first
equals sign must be in `ALLOWED_CHANGES` or start with an underscore.
The `file` argument is only used for logging in the source. -/
def check_diff : List Diff → List Char → Bool
  | [], _ => true
  | Diff.right r :: rest, file =>
    if !(containsChar r eqChar) then false
    else
      if !(ALLOWED_CHANGES.contains (r.takeWhile (fun c => !(c = eqChar))))
          && !(startsWithChars [underscoreChar] (r.takeWhile (fun c => !(c = eqChar)))) then
        false
      else check_diff rest file
  | _ :: rest, file => check_diff rest file

/-- Fuel-driven longest common subsequence of two line lists, used to
model the external `diff::lines` line differ. -/
def lcsGo : Nat → List (List Char) → List (List Char) → List (List Char)
  | 0, _, _ => []
  | _ + 1, [], _ => []
  | _ + 1, _ :: _, [] => []
  | fuel + 1, a :: as, b :: bs =>
    if a = b then a :: lcsGo fuel as bs
    else
      let x := lcsGo fuel as (b :: bs)
      let y := lcsGo fuel (a :: as) bs
      if y.length ≤ x.length then x else y

/-- Longest common subsequence of two line lists. -/
def lcs (a b : List (List Char)) : List (List Char) :=
  lcsGo (a.length + b.length) a b

/-- Produce the diff records from the two line lists and their common
subsequence. -/
def diffWith : List (List Char) → List (List Char) → List (List Char) → List Diff
  | as, bs, [] => as.map Diff.left ++ bs.map Diff.right
  | as, bs, c :: cs =>
    (as.takeWhile (fun x => !(x = c))).map Diff.left
      ++ (bs.takeWhile (fun x => !(x = c))).map Diff.right
      ++ (Diff.both c c ::
            diffWith ((as.dropWhile (fun x => !(x = c))).drop 1)
              ((bs.dropWhile (fun x => !(x = c))).drop 1) cs)

/-- Model of the external `diff::lines`: a line-level diff of the two
texts. -/
def diffLines (a b : List Char) : List Diff :=
  diffWith (rustLines a) (rustLines b) (lcs (rustLines a) (rustLines b))

/-- Model of `hash_file_diff` from pkgcheck.rs.  The source compares
the md5 hex digests of the two files and returns the result of the
EQUALITY comparison; the hash comparison is modelled as content
equality (collision-free abstraction).  Note that, despite its name,
the function returns `true` when the two files are identical. -/
def hash_file_diff (a b : List Char) : Bool :=
  a == b

/-- One file visited by the lock-step walk in `check_files`: its
directory flag and name from the walker, its content, and the mime
type that the external `tree_magic` sniffer derives from the content
(modelled as a field because the sniffer is an external library). -/
structure FileEntry where
  isDir : Bool
  name : List Char
  mime : List Char
  content : List Char
deriving DecidableEq

/-- Loop of `Check::check_files` from pkgcheck.rs over the zipped pairs
of walked entries, threading the `had_diff` flag. -/
def checkFilesLoop (checkDiff : Bool) : Bool → List (FileEntry × FileEntry) → Bool
  | hadDiff, [] => hadDiff
  | hadDiff, (a, b) :: rest =>
    if a.isDir || b.isDir then checkFilesLoop checkDiff hadDiff rest
    else
      if pcontains UTF8_MIMES b.mime then
        let d := diffLines (parse_src_file a.content) (parse_src_file b.content)
        if checkDiff && !(check_diff d a.name) then false
        else checkFilesLoop checkDiff (hadDiff || !(is_diff_empty d)) rest
      else
        let hasDiff := hash_file_diff a.content b.content
        if checkDiff && !(pcontains ALLOWED_MIMES b.mime) && hasDiff then false
        else checkFilesLoop checkDiff (hadDiff || hasDiff) rest

/-- Model of `Check::check_files` from pkgcheck.rs: validate all pairs
of the two trees' walked entries; return `false` when a file fails its
check or when no difference at all was recorded. -/
def check_files (checkDiff : Bool) (left right : List FileEntry) : Bool :=
  checkFilesLoop checkDiff false (left.zip right)

/-- The `Site` enumeration of dir_diff.rs. -/
inductive Site
  | Left
  | Right
  | Unknown
deriving DecidableEq

/-- A filesystem tree: a file or a directory with children.  This
models the directory structures walked by dir_diff.rs. -/
inductive FsTree
  | file (n : List Char)
  | dir (n : List Char) (ch : List FsTree)

/-- The display name of a tree node (Rust `DirEntry::file_name`). -/
def nameOf : FsTree → List Char
  | FsTree.file n => n
  | FsTree.dir n _ => n

/-- Whether a tree node is a directory (Rust `file_type().is_dir()`). -/
def isDirT : FsTree → Bool
  | FsTree.file _ => false
  | FsTree.dir _ _ => true

/-- Strict lexicographic byte order on names, modelling the `cmp` of
`compare_by_file_name` in dir_diff.rs. -/
def charListLt : List Char → List Char → Bool
  | [], [] => false
  | [], _ :: _ => true
  | _ :: _, [] => false
  | a :: as, b :: bs =>
    if a.val < b.val then true
    else if b.val < a.val then false
    else charListLt as bs

/-- Insert a tree into a name-sorted sibling list. -/
def insertByName (x : FsTree) : List FsTree → List FsTree
  | [] => [x]
  | y :: ys =>
    if charListLt (nameOf y) (nameOf x) then y :: insertByName x ys
    else x :: y :: ys

mutual

/-- Recursively sort every directory's children by name, modelling the
`sort_by(compare_by_file_name)` option of the walker. -/
def sortTree : FsTree → FsTree
  | FsTree.file n => FsTree.file n
  | FsTree.dir n ch => FsTree.dir n (sortForest ch)

/-- Insertion sort of a sibling list, applied after recursively
sorting each sibling. -/
def sortForest : List FsTree → List FsTree
  | [] => []
  | t :: ts => insertByName (sortTree t) (sortForest ts)

end

/-- One entry produced by the walker: depth below the walk root, the
directory flag and the name (the fields compared by dir_diff.rs). -/
structure FsEntry where
  depth : Nat
  isDir : Bool
  name : List Char
deriving DecidableEq

mutual

/-- The entry sequence of the `walkdir` walker on a (pre-sorted) tree:
the node itself, then its children depth-first. -/
def walkAll (d : Nat) : FsTree → List FsEntry
  | FsTree.file n => [⟨d, false, n⟩]
  | FsTree.dir n ch => ⟨d, true, n⟩ :: walkChildren (d + 1) ch

/-- Walk a sibling list in order. -/
def walkChildren (d : Nat) : List FsTree → List FsEntry
  | [] => []
  | t :: ts => walkAll d t ++ walkChildren d ts

end

/-- The entry of the walk root itself, yielded first by `walkdir` at
depth 0. -/
def rootEntry (t : FsTree) : FsEntry :=
  ⟨0, isDirT t, nameOf t⟩

/-- Model of `walk_dir` from dir_diff.rs: build the sorted walk of the
root and consume the first produced entry (the root's own entry)
before handing the iterator out. -/
def walk_dir (t : FsTree) : List FsEntry :=
  (walkAll 0 (sortTree t)).drop 1

/-- Model of `git_filter_entries` from dir_diff.rs: drop `.git`
directories, `.gitignore` and `.SRCINFO`. -/
def git_filter_entries (isDir : Bool) (n : List Char) : Bool :=
  !((isDir && n == chars (".git")) || n == chars (".gitignore")
      || n == chars (".SRCINFO"))

mutual

/-- Filtered walk of one (pre-sorted) subtree: `filter_entry` skips a
rejected directory together with its whole subtree. -/
def walkFiltered (d : Nat) : FsTree → List FsEntry
  | FsTree.file n =>
    if git_filter_entries false n then [⟨d, false, n⟩] else []
  | FsTree.dir n ch =>
    if git_filter_entries true n then ⟨d, true, n⟩ :: walkFilteredList (d + 1) ch
    else []

/-- Filtered walk of a sibling list. -/
def walkFilteredList (d : Nat) : List FsTree → List FsEntry
  | [] => []
  | t :: ts => walkFiltered d t ++ walkFilteredList d ts

end

/-- The filtered, root-dropped walk used by `is_different` (and by
`check_files`): `walk_dir` followed by `filter_entry`, so the root's
own entry is already consumed and never filtered or compared. -/
def walkDirFiltered (t : FsTree) : List FsEntry :=
  match sortTree t with
  | FsTree.file _ => []
  | FsTree.dir _ ch => walkFilteredList 1 ch

/-- The comparison in the loop of `is_different`: depth, file type or
name differ. -/
def entriesMismatch (a b : FsEntry) : Bool :=
  !(a.depth == b.depth) || !(a.isDir == b.isDir) || !(a.name == b.name)

/-- Model of the loop of `is_different` in dir_diff.rs on the two walk
sequences, with the exact semantics of Rust `Iterator::zip`: when the
left iterator still yields an entry but the right one is exhausted,
that left entry has already been consumed by `zip` and is therefore
not seen by the trailing `a_walker.next()` check. -/
def is_differentList : List FsEntry → List FsEntry → Option Site
  | [], [] => none
  | [], _ :: _ => some Site.Right
  | _ :: rest, [] =>
    match rest with
    | [] => none
    | _ :: _ => some Site.Left
  | a :: as, b :: bs =>
    if entriesMismatch a b then some Site.Unknown
    else is_differentList as bs

/-- Model of `is_different` from dir_diff.rs: compare the two filtered
walks in lock step. -/
def is_different (a b : FsTree) : Option Site :=
  is_differentList (walkDirFiltered a) (walkDirFiltered b)

/-- Model of `Check::are_dirs_different` from pkgcheck.rs: `true`
exactly when `is_different` reports a `Right` divergence. -/
def are_dirs_different (r : Option Site) : Bool :=
  match r with
  | some site => site == Site.Right
  | none => false

/-- Modelled from the spec: the job status set of the external
`lib_remotebuild` build provider, a closed set of five states of which
`Succeeded`, `Failed` and `Cancelled` are terminal. -/
inductive JobStatus
  | Pending
  | Running
  | Succeeded
  | Failed
  | Cancelled
deriving DecidableEq

/-- Modelled from the spec: `is_stopped_state` of the external build
provider is true exactly on the terminal states `Succeeded`, `Failed`
and `Cancelled`. -/
def isStoppedState : JobStatus → Bool
  | JobStatus.Succeeded => true
  | JobStatus.Failed => true
  | JobStatus.Cancelled => true
  | _ => false

/-- The `Error` enumeration of error.rs, with its string payloads. -/
inductive Error
  | DifferentDirs (s : List Char)
  | ChecksFailed (s : List Char)
  | AurJobError (s : List Char)
  | JobInfoError (s : List Char)
  | JobFailed (s : List Char)
deriving DecidableEq

/-- Model of `wait_for_build_job` from main.rs.  The argument list is
the sequence of poll results the build provider returns (`Except`
error payloads model the formatted provider error).  The loop
propagates a poll error as `JobInfoError`, keeps polling while the
status is not a stopped state, and on the first stopped status maps
`Failed` and `Cancelled` to `JobFailed` and everything else to
success.  `none` models a poll sequence that never reaches a terminal
answer (the source loops forever in that case).  `resolveStopped` is
the match on the terminal status after the loop. -/
def resolveStopped (jid : List Char) : JobStatus → Except Error Unit
  | JobStatus.Failed => Except.error (Error.JobFailed jid)
  | JobStatus.Cancelled =>
    Except.error (Error.JobFailed
      (chars ("ID: ") ++ jid ++ chars (". Job was cancelled")))
  | _ => Except.ok ()

def wait_for_build_job (jid : List Char) :
    List (Except (List Char) JobStatus) → Option (Except Error Unit)
  | [] => none
  | Except.error e :: _ => some (Except.error (Error.JobInfoError e))
  | Except.ok st :: rest =>
    if isStoppedState st then some (resolveStopped jid st)
    else wait_for_build_job jid rest

/-- The pipeline steps of `update_package` from main.rs, in source
order; used to record which actions an update attempt performed. -/
inductive StepTag
  | createDirs
  | parseCustomUrl
  | parseAurUrl
  | cloneAur
  | cloneCustom
  | dirCheck
  | checkFiles
  | applyChanges
  | srcinfo
  | createJob
  | waitJob
  | push
  | notify
  | removeTmp
deriving DecidableEq

/-- An error surfaced by `update_package`: either an `error::Error`
value of the application or an error bubbled up from an external
library at the given step (url parsing, git, filesystem, build
provider transport, bot). -/
inductive PipelineError
  | app (e : Error)
  | ext (tag : StepTag)
deriving DecidableEq

/-- The observable outcome of one `update_package` call: its returned
result, whether the package's tmp workspace directory exists on disk
afterwards, and the pipeline steps that were attempted, in order. -/
structure UpdateOutcome where
  result : Except PipelineError Unit
  tmpFinal : Bool
  steps : List StepTag

/-- The environment of one `update_package` call: the package name,
whether the tmp workspace directory already exists, and the outcome of
every external interaction in source order (url parsing, the two
clones, the directory differ's answer, `check_files`, applying
changes, `.SRCINFO` regeneration, job creation, the build wait, the
push and the notification). -/
structure UpdateEnv where
  pkgName : List Char
  tmpExists : Bool
  customUrlOk : Bool
  aurUrlOk : Bool
  cloneAurOk : Bool
  cloneCustomOk : Bool
  dirDiff : Option Site
  checkRes : Except Unit Bool
  applyOk : Bool
  srcinfoOk : Bool
  createJobOk : Bool
  waitRes : Except Error Unit
  pushOk : Bool
  notifyOk : Bool

/-- Model of `update_package` from main.rs: skip when the workspace
already exists; otherwise create the workspace, run the pipeline with
early returns exactly as in the source, and remove the workspace only
at the very end of the fully successful path.  `fs::create_dir` and
`fs::remove_dir_all` are modelled as succeeding. -/
def update_package (env : UpdateEnv) : UpdateOutcome :=
  match env.tmpExists with
  | true => ⟨Except.ok (), true, []⟩
  | false =>
    match env.customUrlOk with
    | false =>
      ⟨Except.error (PipelineError.ext StepTag.parseCustomUrl), true,
        [StepTag.createDirs, StepTag.parseCustomUrl]⟩
    | true =>
      match env.aurUrlOk with
      | false =>
        ⟨Except.error (PipelineError.ext StepTag.parseAurUrl), true,
          [StepTag.createDirs, StepTag.parseCustomUrl, StepTag.parseAurUrl]⟩
      | true =>
        match env.cloneAurOk with
        | false =>
          ⟨Except.error (PipelineError.ext StepTag.cloneAur), true,
            [StepTag.createDirs, StepTag.parseCustomUrl, StepTag.parseAurUrl,
             StepTag.cloneAur]⟩
        | true =>
          match env.cloneCustomOk with
          | false =>
            ⟨Except.error (PipelineError.ext StepTag.cloneCustom), true,
              [StepTag.createDirs, StepTag.parseCustomUrl, StepTag.parseAurUrl,
               StepTag.cloneAur, StepTag.cloneCustom]⟩
          | true =>
            match are_dirs_different env.dirDiff with
            | true =>
              ⟨Except.error (PipelineError.app (Error.DifferentDirs env.pkgName)),
                true,
                [StepTag.createDirs, StepTag.parseCustomUrl, StepTag.parseAurUrl,
                 StepTag.cloneAur, StepTag.cloneCustom, StepTag.dirCheck]⟩
            | false =>
              match env.checkRes with
              | Except.error _ =>
                ⟨Except.error (PipelineError.ext StepTag.checkFiles), true,
                  [StepTag.createDirs, StepTag.parseCustomUrl, StepTag.parseAurUrl,
                   StepTag.cloneAur, StepTag.cloneCustom, StepTag.dirCheck,
                   StepTag.checkFiles]⟩
              | Except.ok false =>
                ⟨Except.ok (), true,
                  [StepTag.createDirs, StepTag.parseCustomUrl, StepTag.parseAurUrl,
                   StepTag.cloneAur, StepTag.cloneCustom, StepTag.dirCheck,
                   StepTag.checkFiles]⟩
              | Except.ok true =>
                match env.applyOk with
                | false =>
                  ⟨Except.error (PipelineError.ext StepTag.applyChanges), true,
                    [StepTag.createDirs, StepTag.parseCustomUrl, StepTag.parseAurUrl,
                     StepTag.cloneAur, StepTag.cloneCustom, StepTag.dirCheck,
                     StepTag.checkFiles, StepTag.applyChanges]⟩
                | true =>
                  match env.srcinfoOk with
                  | false =>
                    ⟨Except.error (PipelineError.ext StepTag.srcinfo), true,
                      [StepTag.createDirs, StepTag.parseCustomUrl, StepTag.parseAurUrl,
                       StepTag.cloneAur, StepTag.cloneCustom, StepTag.dirCheck,
                       StepTag.checkFiles, StepTag.applyChanges, StepTag.srcinfo]⟩
                  | true =>
                    match env.createJobOk with
                    | false =>
                      ⟨Except.error (PipelineError.app (Error.AurJobError env.pkgName)),
                        true,
                        [StepTag.createDirs, StepTag.parseCustomUrl, StepTag.parseAurUrl,
                         StepTag.cloneAur, StepTag.cloneCustom, StepTag.dirCheck,
                         StepTag.checkFiles, StepTag.applyChanges, StepTag.srcinfo,
                         StepTag.createJob]⟩
                    | true =>
                      match env.waitRes with
                      | Except.error e =>
                        ⟨Except.error (PipelineError.app e), true,
                          [StepTag.createDirs, StepTag.parseCustomUrl, StepTag.parseAurUrl,
                           StepTag.cloneAur, StepTag.cloneCustom, StepTag.dirCheck,
                           StepTag.checkFiles, StepTag.applyChanges, StepTag.srcinfo,
                           StepTag.createJob, StepTag.waitJob]⟩
                      | Except.ok _ =>
                        match env.pushOk with
                        | false =>
                          ⟨Except.error (PipelineError.ext StepTag.push), true,
                            [StepTag.createDirs, StepTag.parseCustomUrl, StepTag.parseAurUrl,
                             StepTag.cloneAur, StepTag.cloneCustom, StepTag.dirCheck,
                             StepTag.checkFiles, StepTag.applyChanges, StepTag.srcinfo,
                             StepTag.createJob, StepTag.waitJob, StepTag.push]⟩
                        | true =>
                          match env.notifyOk with
                          | false =>
                            ⟨Except.error (PipelineError.ext StepTag.notify), true,
                              [StepTag.createDirs, StepTag.parseCustomUrl, StepTag.parseAurUrl,
                               StepTag.cloneAur, StepTag.cloneCustom, StepTag.dirCheck,
                               StepTag.checkFiles, StepTag.applyChanges, StepTag.srcinfo,
                               StepTag.createJob, StepTag.waitJob, StepTag.push,
                               StepTag.notify]⟩
                          | true =>
                            ⟨Except.ok (), false,
                              [StepTag.createDirs, StepTag.parseCustomUrl, StepTag.parseAurUrl,
                               StepTag.cloneAur, StepTag.cloneCustom, StepTag.dirCheck,
                               StepTag.checkFiles, StepTag.applyChanges, StepTag.srcinfo,
                               StepTag.createJob, StepTag.waitJob, StepTag.push,
                               StepTag.notify, StepTag.removeTmp]⟩

/-- A baseline environment in which every external interaction
succeeds, the differ reports no divergence and the validator accepts:
the fully successful update path. -/
def envBase : UpdateEnv :=
  ⟨chars ("pkg"), false, true, true, true, true, none, Except.ok true,
    true, true, true, Except.ok (), true, true⟩

/-- The baseline environment with the directory differ answering a
`Right` divergence (extra entries only on the remote tree). -/
def envRight : UpdateEnv := { envBase with dirDiff := some Site.Right }

/-- The baseline environment with the directory differ answering a
`Left` divergence (extra entries only on the local tree). -/
def envLeft : UpdateEnv := { envBase with dirDiff := some Site.Left }

/-- A package tree with a single file. -/
def treeOneFile : FsTree :=
  FsTree.dir (chars ("pkg")) [FsTree.file (chars ("PKGBUILD"))]

/-- The same package tree with one extra file whose name sorts after
the existing file. -/
def treeTwoFiles : FsTree :=
  FsTree.dir (chars ("pkg"))
    [FsTree.file (chars ("PKGBUILD")), FsTree.file (chars ("extra"))]

/-- The same package tree with two extra files sorting after the
existing file. -/
def treeThreeFiles : FsTree :=
  FsTree.dir (chars ("pkg"))
    [FsTree.file (chars ("PKGBUILD")), FsTree.file (chars ("a1")),
     FsTree.file (chars ("a2"))]

/-- The same package tree with one extra file whose name sorts before
the existing file. -/
def treeEarlyExtra : FsTree :=
  FsTree.dir (chars ("pkg"))
    [FsTree.file (chars ("AAA")), FsTree.file (chars ("PKGBUILD"))]

/-- An image file pair member: the sniffed mime type is exempt
(`image/`), the content identical on both sides. -/
def imgEntry : FileEntry :=
  { isDir := false, name := chars ("icon.png"), mime := chars ("image/png"),
    content := chars ("PNGDATA") }

/-- An unclassified binary file. -/
def binEntryA : FileEntry :=
  { isDir := false, name := chars ("blob.bin"),
    mime := chars ("application/octet-stream"), content := chars ("AAAA") }

/-- The same unclassified binary file with the last byte changed. -/
def binEntryB : FileEntry :=
  { isDir := false, name := chars ("blob.bin"),
    mime := chars ("application/octet-stream"), content := chars ("AAAB") }

/-- The condition `check_diff` enforces on one added line: it contains
an equals sign and the token in front of the first equals sign is an
allow-listed variable name or starts with an underscore. -/
def addedLineOk (r : List Char) : Bool :=
  containsChar r eqChar
    && (ALLOWED_CHANGES.contains (r.takeWhile (fun c => !(c = eqChar)))
        || startsWithChars [underscoreChar] (r.takeWhile (fun c => !(c = eqChar))))

/-- Characters on which the normalization of `parse_src_file` acts
specially: the statement separator, the quote used by the multi-line
folding, the comment marker and blank characters other than the line
feed.  Inputs free of these are `plainChar` inputs. -/
def plainChar (c : Char) : Bool :=
  !(c = semiChar || c = quoteChar || c = hashChar || c = spaceChar
      || c = tabChar || c = crChar)

/-- Join a list of lines, appending a line feed after every line: the
shape of every `parse_src_file` output. -/
def joinNl : List (List Char) → List Char
  | [] => []
  | s :: ss => s ++ nlChar :: joinNl ss

/-- Interleave the lines with single line feeds, with no trailing line
feed. -/
def intercalateNl : List (List Char) → List Char
  | [] => []
  | [s] => s
  | s :: ss => s ++ nlChar :: intercalateNl ss

/-- A line of normalized output on the plain-character fragment: it is
non-empty and all its characters are plain and are not line feeds. -/
def goodSeg (s : List Char) : Prop :=
  s ≠ [] ∧ ∀ c ∈ s, plainChar c = true ∧ c ≠ nlChar

theorem entriesMismatch_self (a : FsEntry) : entriesMismatch a a = false := by
  simp [entriesMismatch]

theorem is_differentList_refl : ∀ l : List FsEntry, is_differentList l l = none := by
  intro l
  induction l with
  | nil => rfl
  | cons a as ih => simp [is_differentList, entriesMismatch_self, ih]

/-- C9: comparing any tree against itself with `is_different` returns
`None`: a tree is never structurally divergent from itself. -/
theorem c9_is_different_refl (t : FsTree) : is_different t t = none := by
  simp [is_different, is_differentList_refl]

/-- Witness for C9 at a concrete tree. -/
theorem c9_is_different_refl_witness : is_different treeOneFile treeOneFile = none :=
  c9_is_different_refl treeOneFile

/-- C5 counterexample: two trees where the left one contains exactly
one extra file (sorting last) and is otherwise identical to the right
one; `is_different` returns `None`, not `Some(Left)` — `zip` consumes
the single leftover left entry before the trailing leftover check. -/
theorem c5_single_extra_left_file_undetected :
    is_different treeTwoFiles treeOneFile = none
    ∧ ¬(is_different treeTwoFiles treeOneFile = some Site.Left) := by
  constructor
  · decide
  · decide

/-- C5 (amended): on walks where the right sequence is a prefix of the
left one, `is_different` reports `Left` exactly when the left walk has
at least two leftover entries; a single leftover entry is silently
consumed by `zip` and yields `None`; and an extra left file that makes
the walks misalign yields `Unknown` instead of `Left`. -/
theorem c5_leftover_left_entries :
    (∀ common extra : List FsEntry,
        is_differentList (common ++ extra) common =
          if extra.length ≤ 1 then none else some Site.Left)
    ∧ is_different treeThreeFiles treeOneFile = some Site.Left
    ∧ is_different treeEarlyExtra treeOneFile = some Site.Unknown := by
  refine ⟨?_, by decide, by decide⟩
  intro common extra
  induction common with
  | nil =>
    match extra with
    | [] => rfl
    | [x] => rfl
    | x :: y :: rest => rfl
  | cons c cs ih =>
    simpa [is_differentList, entriesMismatch_self] using ih

/-- Witness for the amended C5 statement at concrete walks. -/
theorem c5_leftover_left_entries_witness :
    is_differentList [⟨1, false, chars ("PKGBUILD")⟩, ⟨1, false, chars ("extra")⟩]
        [⟨1, false, chars ("PKGBUILD")⟩] = none :=
  c5_leftover_left_entries.1 [⟨1, false, chars ("PKGBUILD")⟩] [⟨1, false, chars ("extra")⟩]

theorem walkChildren_mem :
    ∀ (ts : List FsTree) (d : Nat) (e : FsEntry),
      e ∈ walkChildren d ts → ∃ t ∈ ts, e ∈ walkAll d t := by
  intro ts
  induction ts with
  | nil => intro d e h; simp [walkChildren] at h
  | cons t ts ih =>
    intro d e h
    rw [walkChildren, List.mem_append] at h
    rcases h with h | h
    · exact ⟨t, by simp, h⟩
    · obtain ⟨u, hu, he⟩ := ih d e h
      exact ⟨u, by simp [hu], he⟩

theorem walkAll_depth_aux :
    ∀ (n : Nat) (t : FsTree), sizeOf t ≤ n →
      ∀ (d : Nat) (e : FsEntry), e ∈ walkAll d t → d ≤ e.depth := by
  intro n
  induction n with
  | zero =>
    intro t h
    exfalso
    cases t <;> simp_arith at h
  | succ n ih =>
    intro t h d e he
    cases t with
    | file nm =>
      rw [walkAll, List.mem_singleton] at he
      subst he
      exact Nat.le_refl d
    | dir nm ch =>
      rw [walkAll, List.mem_cons] at he
      rcases he with he | he
      · subst he
        exact Nat.le_refl d
      · obtain ⟨u, hu, heu⟩ := walkChildren_mem ch (d + 1) e he
        have h1 : sizeOf u < sizeOf ch := List.sizeOf_lt_of_mem hu
        have h2 : sizeOf ch < sizeOf (FsTree.dir nm ch) := by simp_arith
        have h3 : sizeOf u ≤ n := by omega
        have := ih u h3 (d + 1) e heu
        omega

theorem walkAll_depth (t : FsTree) (d : Nat) (e : FsEntry) :
    e ∈ walkAll d t → d ≤ e.depth :=
  walkAll_depth_aux (sizeOf t) t (Nat.le_refl _) d e

/-- C10: the walk sequence returned by `walk_dir` never contains the
root's own entry: the sorted walk yields the root entry first,
`walk_dir` drops it, and every remaining entry has depth at least 1
while the root entry has depth 0, so downstream consumers only ever
pair the roots' descendants. -/
theorem c10_walk_dir_skips_root (t : FsTree) :
    walkAll 0 (sortTree t) = rootEntry t :: walk_dir t
    ∧ (∀ e ∈ walk_dir t, 1 ≤ e.depth)
    ∧ rootEntry t ∉ walk_dir t := by
  have hroot : walkAll 0 (sortTree t) = rootEntry t :: walk_dir t := by
    cases t with
    | file nm => simp [sortTree, walkAll, walk_dir, rootEntry, isDirT, nameOf]
    | dir nm ch => simp [sortTree, walkAll, walk_dir, rootEntry, isDirT, nameOf]
  have hdepth : ∀ e ∈ walk_dir t, 1 ≤ e.depth := by
    intro e he
    cases t with
    | file nm =>
      rw [walk_dir] at he
      simp [sortTree, walkAll] at he
    | dir nm ch =>
      rw [walk_dir] at he
      simp only [sortTree, walkAll, List.drop_succ_cons, List.drop_zero] at he
      obtain ⟨u, _, heu⟩ := walkChildren_mem (sortForest ch) 1 e he
      exact walkAll_depth u 1 e heu
  refine ⟨hroot, hdepth, ?_⟩
  intro hmem
  have := hdepth (rootEntry t) hmem
  simp [rootEntry] at this

/-- Witness for C10 at a concrete tree. -/
theorem c10_walk_dir_skips_root_witness :
    rootEntry treeOneFile ∉ walk_dir treeOneFile :=
  (c10_walk_dir_skips_root treeOneFile).2.2


theorem check_diff_iff :
    ∀ (res : List Diff) (file : List Char),
      check_diff res file = true ↔
        ∀ r : List Char, Diff.right r ∈ res → addedLineOk r = true := by
  intro res file
  induction res with
  | nil => simp [check_diff]
  | cons hd rest ih =>
    cases hd with
    | left l => simp [check_diff, ih]
    | both l r => simp [check_diff, ih]
    | right r =>
      rw [check_diff]
      rcases hc : containsChar r eqChar with _ | _
      · simp only [hc, Bool.not_false, if_true]
        constructor
        · intro h
          exact absurd h (by simp)
        · intro h
          have hr := h r (List.mem_cons_self _ _)
          rw [addedLineOk, hc] at hr
          simp at hr
      · simp only [hc, Bool.not_true, Bool.false_eq_true, if_false]
        rcases hcond : (!(ALLOWED_CHANGES.contains (r.takeWhile (fun c => !(c = eqChar))))
            && !(startsWithChars [underscoreChar] (r.takeWhile (fun c => !(c = eqChar))))) with _ | _
        · simp only [hcond, Bool.false_eq_true, if_false]
          have hok : addedLineOk r = true := by
            rw [addedLineOk, hc]
            rw [Bool.and_eq_false_iff] at hcond
            rcases hcond with hcond | hcond <;> simp_all
          constructor
          · intro h r' hr'
            rw [List.mem_cons] at hr'
            rcases hr' with hr' | hr'
            · have : r' = r := by injection hr'
              rw [this]
              exact hok
            · exact (ih.mp h) r' hr'
          · intro h
            exact ih.mpr (fun r' hr' => h r' (List.mem_cons_of_mem _ hr'))
        · simp only [hcond, if_true]
          constructor
          · intro h
            exact absurd h (by simp)
          · intro h
            have hr := h r (List.mem_cons_self _ _)
            rw [addedLineOk, hc] at hr
            rw [Bool.and_eq_true] at hcond
            rcases hcond with ⟨h1, h2⟩
            simp at h1 h2
            simp [h1, h2] at hr

/-- C3: the allow-list check `check_diff` accepts a line diff exactly
when every `Added` line contains an equals sign whose leading token is
either in the fixed `ALLOWED_CHANGES` allow-list or starts with an
underscore; concretely, an added line `pkgver=2.0` is accepted,
`echo pwned` is rejected and `_custom=1` is accepted. -/
theorem c3_check_diff_allowlist :
    (∀ (res : List Diff) (file : List Char),
        check_diff res file = true ↔
          ∀ r : List Char, Diff.right r ∈ res → addedLineOk r = true)
    ∧ check_diff [Diff.right (chars ("pkgver=2.0"))] (chars ("PKGBUILD")) = true
    ∧ check_diff [Diff.right (chars ("echo pwned"))] (chars ("PKGBUILD")) = false
    ∧ check_diff [Diff.right (chars ("_custom=1"))] (chars ("PKGBUILD")) = true :=
  ⟨check_diff_iff, by decide, by decide, by decide⟩

/-- Witness for C3: the general direction of the equivalence applied
to a concrete one-line diff. -/
theorem c3_check_diff_allowlist_witness :
    check_diff [Diff.right (chars ("sha512sums=(abc)"))] (chars ("PKGBUILD")) = true :=
  (c3_check_diff_allowlist.1 [Diff.right (chars ("sha512sums=(abc)"))]
      (chars ("PKGBUILD"))).mpr (by
    intro r hr
    rw [List.mem_singleton] at hr
    have : r = chars ("sha512sums=(abc)") := by injection hr
    rw [this]
    decide)

/-- C2: evaluation of the code at the failing input.  `hash_file_diff`
returns `true` for identical contents and `false` for contents
differing in one byte (it returns the result of the md5 EQUALITY
comparison, despite its name), and consequently `check_files` ACCEPTS
a package whose opaque binary pair differs in a single byte (the
accompanying exempt image pair is identical) and REJECTS the package
when the opaque binary pair is identical. -/
theorem c2_opaque_binary_checks_inverted :
    hash_file_diff (chars ("AAAA")) (chars ("AAAA")) = true
    ∧ hash_file_diff (chars ("AAAA")) (chars ("AAAB")) = false
    ∧ check_files true [imgEntry, binEntryA] [imgEntry, binEntryB] = true
    ∧ check_files true [imgEntry, binEntryA] [imgEntry, binEntryA] = false := by
  refine ⟨by decide, by decide, by decide, by decide⟩

/-- C4: evaluation of the code at the failing input.  A tree pair
consisting of a single identical (exempt image) file pair exhibits no
difference anywhere, yet `check_files` returns `true`: the inverted
`hash_file_diff` result makes the identical pair count as the "change"
that defeats the no-op guard.  For a purely textual identical pair the
no-op guard does return `false`. -/
theorem c4_noop_tree_accepted :
    check_files true [imgEntry] [imgEntry] = true
    ∧ check_files true
        [{ isDir := false, name := chars ("PKGBUILD"),
           mime := chars ("text/plain"), content := chars ("pkgver=1.0\n") }]
        [{ isDir := false, name := chars ("PKGBUILD"),
           mime := chars ("text/plain"), content := chars ("pkgver=1.0\n") }] = false := by
  refine ⟨by decide, by decide⟩

theorem wait_skip :
    ∀ (jid : List Char) (pre rest : List (Except (List Char) JobStatus)),
      (∀ x ∈ pre, ∃ s, x = Except.ok s ∧ isStoppedState s = false) →
      wait_for_build_job jid (pre ++ rest) = wait_for_build_job jid rest := by
  intro jid pre
  induction pre with
  | nil => intro rest _; rfl
  | cons x xs ih =>
    intro rest h
    obtain ⟨s, hx, hs⟩ := h x (List.mem_cons_self _ _)
    subst hx
    rw [List.cons_append, wait_for_build_job, hs,
      if_neg (show ¬(false = true) by simp)]
    exact ih rest (fun y hy => h y (List.mem_cons_of_mem _ hy))

/-- C7: the build-wait loop keeps polling while the returned status is
non-terminal; on the first terminal status `Succeeded` resolves `Ok`
while `Failed` and `Cancelled` resolve `Err(JobFailed)`; a poll error
immediately resolves `Err(JobInfoError)`; and the poll sequences
`[Pending, Running, Succeeded]` and `[Running, Failed]` resolve as
success and `JobFailed` respectively. -/
theorem c7_wait_for_build_job_behavior :
    ∀ (jid : List Char) (pre rest : List (Except (List Char) JobStatus)),
      (∀ x ∈ pre, ∃ s, x = Except.ok s ∧ isStoppedState s = false) →
      wait_for_build_job jid (pre ++ Except.ok JobStatus.Succeeded :: rest)
          = some (Except.ok ())
      ∧ wait_for_build_job jid (pre ++ Except.ok JobStatus.Failed :: rest)
          = some (Except.error (Error.JobFailed jid))
      ∧ wait_for_build_job jid (pre ++ Except.ok JobStatus.Cancelled :: rest)
          = some (Except.error (Error.JobFailed
              (chars ("ID: ") ++ jid ++ chars (". Job was cancelled"))))
      ∧ (∀ e, wait_for_build_job jid (pre ++ Except.error e :: rest)
          = some (Except.error (Error.JobInfoError e)))
      ∧ wait_for_build_job jid
          [Except.ok JobStatus.Pending, Except.ok JobStatus.Running,
           Except.ok JobStatus.Succeeded] = some (Except.ok ())
      ∧ wait_for_build_job jid [Except.ok JobStatus.Running, Except.ok JobStatus.Failed]
          = some (Except.error (Error.JobFailed jid)) := by
  intro jid pre rest h
  refine ⟨?_, ?_, ?_, ?_, ?_, ?_⟩
  · rw [wait_skip jid pre _ h]; rfl
  · rw [wait_skip jid pre _ h]; rfl
  · rw [wait_skip jid pre _ h]; rfl
  · intro e; rw [wait_skip jid pre _ h]; rfl
  · rfl
  · rfl

/-- Witness for C7: a concrete poll sequence with one non-terminal
poll before success. -/
theorem c7_wait_for_build_job_behavior_witness :
    wait_for_build_job (chars ("42"))
        [Except.ok JobStatus.Pending, Except.ok JobStatus.Succeeded]
      = some (Except.ok ()) :=
  (c7_wait_for_build_job_behavior (chars ("42")) [Except.ok JobStatus.Pending] []
      (by
        intro x hx
        rw [List.mem_singleton] at hx
        exact ⟨JobStatus.Pending, hx, rfl⟩)).1

theorem mem_checkFiles_aux :
    ∀ (nm : List Char) (dd : Option Site) (cr : Except Unit Bool) (ap si cj : Bool)
      (wr : Except Error Unit) (pu no : Bool),
      are_dirs_different dd = false →
      StepTag.checkFiles ∈
        (update_package ⟨nm, false, true, true, true, true, dd, cr, ap, si, cj,
            wr, pu, no⟩).steps := by
  intro nm dd cr ap si cj wr pu no h
  simp only [update_package, h]
  rcases cr with _ | (_ | _) <;> cases ap <;> cases si <;> cases cj <;>
    rcases wr with _ | _ <;> cases pu <;> cases no <;> simp

/-- C1 counterexample: with every earlier step succeeding, a `Right`
answer from the directory differ makes `update_package` abort with
`DifferentDirs` before content validation, while a `Left` answer is
tolerated and the pipeline proceeds through content validation to full
success — the opposite of the claimed policy. -/
theorem c1_right_divergence_aborts :
    (update_package envRight).result
        = Except.error (PipelineError.app (Error.DifferentDirs (chars ("pkg"))))
    ∧ StepTag.checkFiles ∉ (update_package envRight).steps
    ∧ (update_package envLeft).result = Except.ok ()
    ∧ StepTag.checkFiles ∈ (update_package envLeft).steps :=
  ⟨rfl, by decide, rfl, by decide⟩

/-- C1 (amended): once the workspace is fresh and both clones succeed,
`update_package` aborts with the `DifferentDirs` error (and never
reaches content validation) exactly when the directory differ reports
`Right`; every other differ answer — `Left`, `Unknown` or `None` — is
tolerated and reaches the content-validation stage. -/
theorem c1_dircheck_abort_iff_right :
    ∀ env : UpdateEnv,
      env.tmpExists = false → env.customUrlOk = true → env.aurUrlOk = true →
      env.cloneAurOk = true → env.cloneCustomOk = true →
      (((update_package env).result
          = Except.error (PipelineError.app (Error.DifferentDirs env.pkgName))
        ∧ StepTag.checkFiles ∉ (update_package env).steps)
        ↔ env.dirDiff = some Site.Right)
      ∧ (env.dirDiff ≠ some Site.Right →
          StepTag.checkFiles ∈ (update_package env).steps) := by
  intro env h1 h2 h3 h4 h5
  obtain ⟨nm, te, cu, au, ca, cc, dd, cr, ap, si, cj, wr, pu, no⟩ := env
  have e1 : te = false := h1
  have e2 : cu = true := h2
  have e3 : au = true := h3
  have e4 : ca = true := h4
  have e5 : cc = true := h5
  subst e1; subst e2; subst e3; subst e4; subst e5
  rcases dd with _ | s
  · have hmem := mem_checkFiles_aux nm none cr ap si cj wr pu no rfl
    refine ⟨⟨?_, ?_⟩, fun _ => hmem⟩
    · rintro ⟨_, hnot⟩
      exact absurd hmem hnot
    · intro hco
      exact absurd hco (by simp)
  · cases s with
    | Left =>
      have hmem := mem_checkFiles_aux nm (some Site.Left) cr ap si cj wr pu no rfl
      refine ⟨⟨?_, ?_⟩, fun _ => hmem⟩
      · rintro ⟨_, hnot⟩
        exact absurd hmem hnot
      · intro hco
        exact absurd hco (by simp)
    | Unknown =>
      have hmem := mem_checkFiles_aux nm (some Site.Unknown) cr ap si cj wr pu no rfl
      refine ⟨⟨?_, ?_⟩, fun _ => hmem⟩
      · rintro ⟨_, hnot⟩
        exact absurd hmem hnot
      · intro hco
        exact absurd hco (by simp)
    | Right =>
      refine ⟨⟨fun _ => rfl, fun _ => ⟨rfl, ?_⟩⟩, fun hne => absurd rfl hne⟩
      show StepTag.checkFiles ∉
        [StepTag.createDirs, StepTag.parseCustomUrl, StepTag.parseAurUrl,
         StepTag.cloneAur, StepTag.cloneCustom, StepTag.dirCheck]
      decide

/-- Witness for the amended C1 statement: at the concrete environment
whose differ answers `Left`, content validation is reached. -/
theorem c1_dircheck_abort_iff_right_witness :
    StepTag.checkFiles ∈ (update_package envLeft).steps :=
  (c1_dircheck_abort_iff_right envLeft rfl rfl rfl rfl rfl).2 (by decide)

theorem are_dirs_different_none : are_dirs_different none = false := rfl

theorem are_dirs_different_left : are_dirs_different (some Site.Left) = false := rfl

theorem are_dirs_different_unknown :
    are_dirs_different (some Site.Unknown) = false := rfl

theorem are_dirs_different_right : are_dirs_different (some Site.Right) = true := rfl

theorem update_steps_head_aux :
    ∀ (nm : List Char) (cu au ca cc : Bool) (dd : Option Site)
      (cr : Except Unit Bool) (ap si cj : Bool) (wr : Except Error Unit)
      (pu no : Bool),
      (update_package ⟨nm, false, cu, au, ca, cc, dd, cr, ap, si, cj,
          wr, pu, no⟩).steps.head? = some StepTag.createDirs := by
  intro nm cu au ca cc dd cr ap si cj wr pu no
  cases cu <;> try rfl
  cases au <;> try rfl
  cases ca <;> try rfl
  cases cc <;> try rfl
  rcases dd with _ | (_ | _ | _) <;> try rfl
  all_goals (rcases cr with _ | (_ | _) <;> try rfl)
  all_goals (cases ap <;> try rfl)
  all_goals (cases si <;> try rfl)
  all_goals (cases cj <;> try rfl)
  all_goals (rcases wr with _ | _ <;> try rfl)
  all_goals (cases pu <;> try rfl)
  all_goals (cases no <;> rfl)

theorem update_spine_aux :
    ∀ env : UpdateEnv,
      (update_package env).tmpFinal = true
      ∨ ((update_package env).result = Except.ok ()
          ∧ StepTag.removeTmp ∈ (update_package env).steps
          ∧ env.tmpExists = false
          ∧ (update_package env).tmpFinal = false) := by
  intro env
  obtain ⟨nm, te, cu, au, ca, cc, dd, cr, ap, si, cj, wr, pu, no⟩ := env
  cases te <;> try exact Or.inl rfl
  cases cu <;> try exact Or.inl rfl
  cases au <;> try exact Or.inl rfl
  cases ca <;> try exact Or.inl rfl
  cases cc <;> try exact Or.inl rfl
  rcases dd with _ | (_ | _ | _) <;> try exact Or.inl rfl
  all_goals (rcases cr with _ | (_ | _) <;> try exact Or.inl rfl)
  all_goals (cases ap <;> try exact Or.inl rfl)
  all_goals (cases si <;> try exact Or.inl rfl)
  all_goals (cases cj <;> try exact Or.inl rfl)
  all_goals (rcases wr with _ | _ <;> try exact Or.inl rfl)
  all_goals (cases pu <;> try exact Or.inl rfl)
  all_goals (cases no <;> try exact Or.inl rfl)
  all_goals exact Or.inr ⟨rfl, by
    simp [update_package, are_dirs_different_none, are_dirs_different_left,
      are_dirs_different_unknown], rfl, rfl⟩

/-- C8: if the package's workspace directory already exists,
`update_package` returns success immediately with no pipeline step
performed; otherwise the workspace creation is the first step of the
attempt, the workspace is gone afterwards only on the path that ran
the final removal after full success, and it remains on disk whenever
an error is returned. -/
theorem c8_workspace_lifecycle :
    (∀ env : UpdateEnv, env.tmpExists = true →
        update_package env = ⟨Except.ok (), true, []⟩)
    ∧ (∀ env : UpdateEnv, env.tmpExists = false →
        (update_package env).steps.head? = some StepTag.createDirs)
    ∧ (∀ env : UpdateEnv, (update_package env).tmpFinal = false →
        (update_package env).result = Except.ok ()
        ∧ StepTag.removeTmp ∈ (update_package env).steps
        ∧ env.tmpExists = false)
    ∧ (∀ (env : UpdateEnv) (e : PipelineError),
        (update_package env).result = Except.error e →
        (update_package env).tmpFinal = true) := by
  refine ⟨?_, ?_, ?_, ?_⟩
  · intro env h
    obtain ⟨nm, te, cu, au, ca, cc, dd, cr, ap, si, cj, wr, pu, no⟩ := env
    have e1 : te = true := h
    subst e1
    rfl
  · intro env h
    obtain ⟨nm, te, cu, au, ca, cc, dd, cr, ap, si, cj, wr, pu, no⟩ := env
    have e1 : te = false := h
    subst e1
    exact update_steps_head_aux nm cu au ca cc dd cr ap si cj wr pu no
  · intro env h
    rcases update_spine_aux env with hl | ⟨hr1, hr2, hr3, hr4⟩
    · rw [h] at hl
      exact absurd hl (by simp)
    · exact ⟨hr1, hr2, hr3⟩
  · intro env e he
    rcases update_spine_aux env with hl | ⟨hr1, _, _, _⟩
    · exact hl
    · rw [he] at hr1
      exact absurd hr1 (by simp)

/-- Witness for C8: the skip path, the created-first step, the
full-success removal and the failure persistence, each at a concrete
environment. -/
theorem c8_workspace_lifecycle_witness :
    update_package { envBase with tmpExists := true } = ⟨Except.ok (), true, []⟩
    ∧ (update_package envBase).steps.head? = some StepTag.createDirs
    ∧ ((update_package envBase).result = Except.ok ()
        ∧ StepTag.removeTmp ∈ (update_package envBase).steps
        ∧ envBase.tmpExists = false)
    ∧ (update_package envRight).tmpFinal = true :=
  ⟨c8_workspace_lifecycle.1 { envBase with tmpExists := true } rfl,
   c8_workspace_lifecycle.2.1 envBase rfl,
   c8_workspace_lifecycle.2.2.1 envBase rfl,
   c8_workspace_lifecycle.2.2.2 envRight
     (PipelineError.app (Error.DifferentDirs (chars ("pkg")))) rfl⟩

/-- C6 counterexample: normalizing `a;b` once yields `a;\nb\n`, but
normalizing that output again yields `a;\n\nb\n`, so `parse_src_file`
is not idempotent. -/
theorem c6_parse_src_file_not_idempotent :
    parse_src_file (parse_src_file (chars ("a;b"))) ≠ parse_src_file (chars ("a;b"))
    ∧ parse_src_file (chars ("a;b")) = chars ("a;\nb\n")
    ∧ parse_src_file (parse_src_file (chars ("a;b"))) = chars ("a;\n\nb\n") := by
  refine ⟨by decide, by decide, by decide⟩

theorem collapseGo_of_no_space :
    ∀ (f : Nat) (l : List Char), (∀ c ∈ l, ¬(c = spaceChar)) →
      collapseGo f l = l := by
  intro f
  induction f with
  | zero => intro l _; rfl
  | succ f ih =>
    intro l h
    cases l with
    | nil => rfl
    | cons c rest =>
      rw [collapseGo, if_neg (h c (List.mem_cons_self _ _))]
      rw [ih rest (fun x hx => h x (List.mem_cons_of_mem _ hx))]

theorem collapseSpaces_of_no_space (l : List Char)
    (h : ∀ c ∈ l, ¬(c = spaceChar)) : collapseSpaces l = l :=
  collapseGo_of_no_space l.length l h

theorem replaceAllGo_of_head_not_mem :
    ∀ (f : Nat) (p : Char) (ps rep l : List Char), p ∉ l →
      replaceAllGo (p :: ps) rep f l = l := by
  intro f
  induction f with
  | zero => intro p ps rep l _; rfl
  | succ f ih =>
    intro p ps rep l h
    cases l with
    | nil => rfl
    | cons c rest =>
      rw [replaceAllGo]
      have hpre : List.isPrefixOf (p :: ps) (c :: rest) = false := by
        rcases hp : List.isPrefixOf (p :: ps) (c :: rest) with _ | _
        · rfl
        · exfalso
          rw [List.isPrefixOf, Bool.and_eq_true, beq_iff_eq] at hp
          exact h (hp.1 ▸ List.mem_cons_self _ _)
      rw [hpre]
      rw [ih p ps rep rest (fun hx => h (List.mem_cons_of_mem _ hx))]

theorem replaceAll_of_head_not_mem (p : Char) (ps rep l : List Char)
    (h : p ∉ l) : replaceAll (p :: ps) rep l = l :=
  replaceAllGo_of_head_not_mem l.length p ps rep l h

theorem mem_trimChars {c : Char} {l : List Char} (h : c ∈ trimChars l) : c ∈ l := by
  rw [trimChars, List.mem_reverse] at h
  have h1 := (List.dropWhile_sublist isWhiteChar).subset h
  rw [List.mem_reverse] at h1
  exact (List.dropWhile_sublist isWhiteChar).subset h1

theorem dropWhile_eq_self_of_all {p : Char → Bool} :
    ∀ l : List Char, (∀ c ∈ l, p c = false) → List.dropWhile p l = l := by
  intro l h
  cases l with
  | nil => rfl
  | cons c rest =>
    rw [List.dropWhile_cons, if_neg]
    rw [h c (List.mem_cons_self _ _)]
    simp

theorem trimChars_of_no_white (l : List Char)
    (h : ∀ c ∈ l, isWhiteChar c = false) : trimChars l = l := by
  rw [trimChars, dropWhile_eq_self_of_all l h, dropWhile_eq_self_of_all, List.reverse_reverse]
  intro c hc
  exact h c (List.mem_reverse.mp hc)

theorem mem_of_getLast? : ∀ {l : List Char} {c : Char}, l.getLast? = some c → c ∈ l := by
  intro l
  induction l with
  | nil => intro c h; exact absurd h (by simp)
  | cons a rest ih =>
    intro c h
    cases rest with
    | nil =>
      simp [List.getLast?] at h
      simp [h]
    | cons b rest' =>
      rw [List.getLast?_cons_cons] at h
      exact List.mem_cons_of_mem _ (ih h)

theorem stripCr_of_no_cr {l : List Char} (h : crChar ∉ l) : stripCr l = l := by
  rw [stripCr, if_neg]
  intro hlast
  exact h (mem_of_getLast? hlast)

theorem splitOnNl_ne_nil : ∀ l : List Char, splitOnNl l ≠ [] := by
  intro l
  cases l with
  | nil => simp [splitOnNl]
  | cons c rest =>
    rw [splitOnNl]
    by_cases hc : c = nlChar
    · simp [hc]
    · rw [if_neg hc]
      rcases hs : splitOnNl rest with _ | ⟨s, ss⟩
      · simp
      · simp

theorem splitOnNl_chars :
    ∀ (l : List Char) (s : List Char) (c : Char),
      s ∈ splitOnNl l → c ∈ s → c ∈ l ∧ c ≠ nlChar := by
  intro l
  induction l with
  | nil =>
    intro s c hs hc
    rw [splitOnNl, List.mem_singleton] at hs
    subst hs
    exact absurd hc (by simp)
  | cons a rest ih =>
    intro s c hs hc
    rw [splitOnNl] at hs
    by_cases ha : a = nlChar
    · rw [if_pos ha, List.mem_cons] at hs
      rcases hs with hs | hs
      · subst hs; exact absurd hc (by simp)
      · obtain ⟨h1, h2⟩ := ih s c hs hc
        exact ⟨List.mem_cons_of_mem _ h1, h2⟩
    · rw [if_neg ha] at hs
      rcases hsp : splitOnNl rest with _ | ⟨s0, ss⟩
      · exact absurd hsp (splitOnNl_ne_nil rest)
      · rw [hsp, List.mem_cons] at hs
        rcases hs with hs | hs
        · subst hs
          rw [List.mem_cons] at hc
          rcases hc with hc | hc
          · subst hc; exact ⟨List.mem_cons_self _ _, ha⟩
          · obtain ⟨h1, h2⟩ := ih s0 c (by rw [hsp]; exact List.mem_cons_self _ _) hc
            exact ⟨List.mem_cons_of_mem _ h1, h2⟩
        · obtain ⟨h1, h2⟩ := ih s c (by rw [hsp]; exact List.mem_cons_of_mem _ hs) hc
          exact ⟨List.mem_cons_of_mem _ h1, h2⟩

theorem splitOnNl_of_no_nl :
    ∀ l : List Char, nlChar ∉ l → splitOnNl l = [l] := by
  intro l
  induction l with
  | nil => intro _; rfl
  | cons c rest ih =>
    intro h
    rw [splitOnNl, if_neg (fun hc => h (by rw [← hc]; exact List.mem_cons_self _ _)),
      ih (fun hx => h (List.mem_cons_of_mem _ hx))]

theorem splitOnNl_append :
    ∀ (s t : List Char), nlChar ∉ s →
      splitOnNl (s ++ nlChar :: t) = s :: splitOnNl t := by
  intro s
  induction s with
  | nil => intro t _; simp [splitOnNl]
  | cons c s' ih =>
    intro t h
    rw [List.cons_append, splitOnNl,
      if_neg (fun hc => h (by rw [← hc]; exact List.mem_cons_self _ _)),
      ih t (fun hx => h (List.mem_cons_of_mem _ hx))]

theorem plainChar_spec {c : Char} (h : plainChar c = true) :
    ¬(c = semiChar) ∧ ¬(c = quoteChar) ∧ ¬(c = hashChar) ∧ ¬(c = spaceChar)
      ∧ ¬(c = tabChar) ∧ ¬(c = crChar) := by
  rw [plainChar] at h
  simp only [Bool.not_eq_eq_eq_not, Bool.not_true, decide_eq_false_iff_not] at h
  simp only [Bool.or_eq_false_iff, decide_eq_false_iff_not] at h
  tauto

theorem isWhiteChar_of_plain {c : Char} (h : plainChar c = true)
    (hnl : c ≠ nlChar) : isWhiteChar c = false := by
  obtain ⟨_, _, _, h4, h5, h6⟩ := plainChar_spec h
  rw [isWhiteChar]
  simp [h4, h5, h6, hnl]

theorem map_stripCr_eq_self :
    ∀ segs : List (List Char), (∀ t ∈ segs, crChar ∉ t) →
      segs.map stripCr = segs := by
  intro segs
  induction segs with
  | nil => intro _; rfl
  | cons s ss ih =>
    intro h
    rw [List.map_cons, stripCr_of_no_cr (h s (List.mem_cons_self _ _)),
      ih (fun t ht => h t (List.mem_cons_of_mem _ ht))]

theorem rustLines_chars :
    ∀ (l s : List Char) (c : Char),
      s ∈ rustLines l → c ∈ s → c ∈ l ∧ c ≠ nlChar := by
  intro l s c hs hc
  cases l with
  | nil => rw [rustLines] at hs; exact absurd hs (by simp)
  | cons a rest =>
    rw [rustLines] at hs
    have hs' : s ∈ (splitOnNl (a :: rest)).map stripCr := by
      by_cases hlast : (a :: rest).getLast? = some nlChar
      · rw [if_pos hlast] at hs
        exact (List.dropLast_sublist _).subset hs
      · rw [if_neg hlast] at hs
        exact hs
    rw [List.mem_map] at hs'
    obtain ⟨s0, hs0, hstrip⟩ := hs'
    have hcs0 : c ∈ s0 := by
      by_cases hcr : s0.getLast? = some crChar
      · rw [← hstrip, stripCr, if_pos hcr] at hc
        exact (List.dropLast_sublist _).subset hc
      · rw [← hstrip, stripCr, if_neg hcr] at hc
        exact hc
    exact splitOnNl_chars (a :: rest) s0 c hs0 hcs0

theorem intercalateNl_ne_nil :
    ∀ (s : List Char) (ss : List (List Char)), s ≠ [] →
      intercalateNl (s :: ss) ≠ [] := by
  intro s ss hs
  cases ss with
  | nil => exact hs
  | cons s1 ss' => simp [intercalateNl]

theorem splitOnNl_intercalate :
    ∀ segs : List (List Char), segs ≠ [] → (∀ t ∈ segs, nlChar ∉ t) →
      splitOnNl (intercalateNl segs) = segs := by
  intro segs
  induction segs with
  | nil => intro h _; exact absurd rfl h
  | cons s ss ih =>
    intro _ h
    cases ss with
    | nil =>
      rw [intercalateNl, splitOnNl_of_no_nl s (h s (List.mem_cons_self _ _))]
    | cons s1 ss' =>
      rw [intercalateNl, splitOnNl_append s _ (h s (List.mem_cons_self _ _)),
        ih (List.cons_ne_nil _ _) (fun t ht => h t (List.mem_cons_of_mem _ ht))]
      exact fun h' => absurd h' (List.cons_ne_nil _ _)

theorem getLast?_intercalateNl :
    ∀ segs : List (List Char), segs ≠ [] → (∀ t ∈ segs, t ≠ []) →
      ∃ c, (intercalateNl segs).getLast? = some c ∧ ∃ t ∈ segs, c ∈ t := by
  intro segs
  induction segs with
  | nil => intro h _; exact absurd rfl h
  | cons s ss ih =>
    intro _ h
    cases ss with
    | nil =>
      rcases hg : s.getLast? with _ | c
      · rw [List.getLast?_eq_none_iff] at hg
        exact absurd hg (h s (List.mem_cons_self _ _))
      · exact ⟨c, by rw [intercalateNl]; exact hg,
          s, List.mem_cons_self _ _, mem_of_getLast? hg⟩
    | cons s1 ss' =>
      obtain ⟨c, hc, t, ht, hct⟩ := ih (List.cons_ne_nil _ _)
        (fun t ht => h t (List.mem_cons_of_mem _ ht))
      refine ⟨c, ?_, t, List.mem_cons_of_mem _ ht, hct⟩
      rw [show intercalateNl (s :: s1 :: ss')
          = s ++ nlChar :: intercalateNl (s1 :: ss') from rfl, List.getLast?_append]
      have : (nlChar :: intercalateNl (s1 :: ss')).getLast? = some c := by
        have hX : intercalateNl (s1 :: ss') ≠ [] :=
          intercalateNl_ne_nil s1 ss' (h s1 (List.mem_cons_of_mem _ (List.mem_cons_self _ _)))
        rw [show (nlChar :: intercalateNl (s1 :: ss'))
            = [nlChar] ++ intercalateNl (s1 :: ss') from rfl,
          List.getLast?_append, hc]
        rfl
      rw [this]
      rfl

theorem rustLines_of_ne_nil (l : List Char) (h : l ≠ []) :
    rustLines l =
      if l.getLast? = some nlChar then ((splitOnNl l).map stripCr).dropLast
      else (splitOnNl l).map stripCr := by
  cases l with
  | nil => exact absurd rfl h
  | cons a rest => rfl

theorem rustLines_intercalate :
    ∀ segs : List (List Char), segs ≠ [] → (∀ t ∈ segs, goodSeg t) →
      rustLines (intercalateNl segs) = segs := by
  intro segs hne hgood
  rcases segs with _ | ⟨s, ss⟩
  · exact absurd rfl hne
  have hnl : ∀ t ∈ s :: ss, nlChar ∉ t :=
    fun t ht hc => ((hgood t ht).2 _ hc).2 rfl
  have hcr : ∀ t ∈ s :: ss, crChar ∉ t :=
    fun t ht hc => (plainChar_spec ((hgood t ht).2 _ hc).1).2.2.2.2.2 rfl
  obtain ⟨c, hc, t, ht, hct⟩ := getLast?_intercalateNl (s :: ss)
    (List.cons_ne_nil _ _) (fun t ht => (hgood t ht).1)
  rw [rustLines_of_ne_nil _ (intercalateNl_ne_nil s ss (hgood s (List.mem_cons_self _ _)).1)]
  rw [if_neg (by
    rw [hc]
    intro hsome
    have : c = nlChar := by injection hsome
    exact ((hgood t ht).2 c hct).2 this)]
  rw [splitOnNl_intercalate _ (List.cons_ne_nil _ _) hnl, map_stripCr_eq_self _ hcr]

theorem joinNl_eq :
    ∀ segs : List (List Char), segs ≠ [] →
      joinNl segs = intercalateNl segs ++ [nlChar] := by
  intro segs
  induction segs with
  | nil => intro h; exact absurd rfl h
  | cons s ss ih =>
    intro _
    cases ss with
    | nil => rfl
    | cons s1 ss' =>
      rw [joinNl, ih (List.cons_ne_nil _ _)]
      rw [show intercalateNl (s :: s1 :: ss')
          = s ++ nlChar :: intercalateNl (s1 :: ss') from rfl]
      simp

theorem intercalateNl_head :
    ∀ (s : List Char) (ss : List (List Char)), s ≠ [] →
      (intercalateNl (s :: ss)).head? = s.head? := by
  intro s ss hs
  cases ss with
  | nil => rfl
  | cons s1 ss' =>
    rw [show intercalateNl (s :: s1 :: ss')
        = s ++ nlChar :: intercalateNl (s1 :: ss') from rfl]
    exact List.head?_append_of_ne_nil s hs

theorem isWhiteChar_nl : isWhiteChar nlChar = true := by decide

theorem trimChars_append_nl :
    ∀ (X : List Char) (c1 c2 : Char),
      X.head? = some c1 → isWhiteChar c1 = false →
      X.getLast? = some c2 → isWhiteChar c2 = false →
      trimChars (X ++ [nlChar]) = X := by
  intro X c1 c2 hh hw1 hl hw2
  have hA : List.dropWhile isWhiteChar (X ++ [nlChar]) = X ++ [nlChar] := by
    rcases X with _ | ⟨a, X'⟩
    · exact absurd hh (by simp)
    · have ha : a = c1 := by simpa using hh
      subst ha
      rw [List.cons_append, List.dropWhile_cons, if_neg (by rw [hw1]; simp)]
  have hB : List.dropWhile isWhiteChar (X ++ [nlChar]).reverse = X.reverse := by
    rw [List.reverse_append]
    rw [show [nlChar].reverse ++ X.reverse = nlChar :: X.reverse by simp]
    rw [List.dropWhile_cons, if_pos (by rw [isWhiteChar_nl])]
    have hhead : X.reverse.head? = some c2 := by rw [List.head?_reverse, hl]
    rcases hrev : X.reverse with _ | ⟨b, R⟩
    · rfl
    · rw [hrev] at hhead
      have hb : b = c2 := by simpa using hhead
      subst hb
      rw [List.dropWhile_cons, if_neg (by rw [hw2]; simp)]
  rw [trimChars, hA, hB, List.reverse_reverse]

theorem trim_joinNl :
    ∀ segs : List (List Char), segs ≠ [] → (∀ t ∈ segs, goodSeg t) →
      trimChars (joinNl segs) = intercalateNl segs := by
  intro segs hne hgood
  rcases segs with _ | ⟨s, ss⟩
  · exact absurd rfl hne
  rw [joinNl_eq _ (List.cons_ne_nil _ _)]
  have hs := hgood s (List.mem_cons_self _ _)
  obtain ⟨a, ha⟩ : ∃ a, s.head? = some a := by
    rcases s with _ | ⟨x, s'⟩
    · exact absurd rfl hs.1
    · exact ⟨x, rfl⟩
  have hamem : a ∈ s := by
    rcases s with _ | ⟨x, s'⟩
    · exact absurd rfl hs.1
    · have hx : x = a := by simpa using ha
      rw [← hx]
      exact List.mem_cons_self _ _
  have hhead : (intercalateNl (s :: ss)).head? = some a := by
    rw [intercalateNl_head s ss hs.1, ha]
  have hwa : isWhiteChar a = false :=
    isWhiteChar_of_plain (hs.2 a hamem).1 (hs.2 a hamem).2
  obtain ⟨c, hc, t, ht, hct⟩ := getLast?_intercalateNl (s :: ss)
    (List.cons_ne_nil _ _) (fun t ht => (hgood t ht).1)
  have hwc : isWhiteChar c = false := by
    have := (hgood t ht).2 c hct
    exact isWhiteChar_of_plain this.1 this.2
  exact trimChars_append_nl _ a c hhead hwa hc hwc

theorem parseLinesGo_eq_joinNl :
    ∀ segs : List (List Char),
      (∀ s ∈ segs, ∀ c ∈ s, plainChar c = true ∧ c ≠ nlChar) →
      parseLinesGo segs = joinNl (segs.filter (fun s => !s.isEmpty)) := by
  intro segs
  induction segs with
  | nil => intro _; rfl
  | cons s ss ih =>
    intro h
    have hplain := h s (List.mem_cons_self _ _)
    have htrim : trimChars s = s :=
      trimChars_of_no_white s
        (fun c hc => isWhiteChar_of_plain (hplain c hc).1 (hplain c hc).2)
    have hrest := ih (fun t ht => h t (List.mem_cons_of_mem _ ht))
    rcases s with _ | ⟨a, s'⟩
    · rw [parseLinesGo]
      rw [show (decide (trimChars ([] : List Char) = [])
          || startsWithChars [hashChar] (trimChars ([] : List Char))) = true from by decide]
      show parseLinesGo ss = joinNl (List.filter (fun s => !s.isEmpty) ([] :: ss))
      rw [hrest,
        show List.filter (fun s : List Char => !s.isEmpty) ([] :: ss)
          = List.filter (fun s : List Char => !s.isEmpty) ss from by simp]
    · have hcond : (decide (trimChars (a :: s') = [])
          || startsWithChars [hashChar] (trimChars (a :: s'))) = false := by
        rw [htrim]
        have h1 : decide ((a :: s') = ([] : List Char)) = false := by simp
        have h2 : startsWithChars [hashChar] (a :: s') = false := by
          rw [startsWithChars]
          have ha : (hashChar == a) = false := by
            rw [beq_eq_false_iff_ne]
            intro he
            exact (plainChar_spec (hplain a (List.mem_cons_self _ _)).1).2.2.1 he.symm
          simp [List.isPrefixOf, ha]
        rw [h1, h2]
        rfl
      rw [parseLinesGo, hcond]
      show (replaceAll [semiChar] [semiChar, nlChar] (trimChars (a :: s')) ++ [nlChar])
          ++ parseLinesGo ss = _
      have hsemi : semiChar ∉ (a :: s') :=
        fun hmem => (plainChar_spec (hplain _ hmem).1).1 rfl
      rw [htrim, replaceAll_of_head_not_mem _ _ _ _ hsemi, hrest]
      rw [show List.filter (fun s : List Char => !s.isEmpty) ((a :: s') :: ss)
          = (a :: s') :: List.filter (fun s : List Char => !s.isEmpty) ss from by simp]
      rw [joinNl]
      simp

theorem parse_plain :
    ∀ l : List Char, (∀ c ∈ l, plainChar c = true) →
      parse_src_file l
        = joinNl ((rustLines (trimChars l)).filter (fun s => !s.isEmpty)) := by
  intro l h
  rw [parse_src_file, unwrap_multi_line]
  have h1 : quoteChar ∉ trimChars l :=
    fun hc => (plainChar_spec (h _ (mem_trimChars hc))).2.1 rfl
  have h2 : ∀ c ∈ trimChars l, ¬(c = spaceChar) :=
    fun c hc => (plainChar_spec (h _ (mem_trimChars hc))).2.2.2.1
  rw [replaceAll_of_head_not_mem _ _ _ _ h1, collapseSpaces_of_no_space _ h2]
  apply parseLinesGo_eq_joinNl
  intro s hs c hc
  have := rustLines_chars (trimChars l) s c hs hc
  exact ⟨h c (mem_trimChars this.1), this.2⟩

theorem joinNl_chars :
    ∀ (segs : List (List Char)) (c : Char), c ∈ joinNl segs →
      (∃ t ∈ segs, c ∈ t) ∨ c = nlChar := by
  intro segs
  induction segs with
  | nil => intro c hc; exact absurd hc (by simp [joinNl])
  | cons s ss ih =>
    intro c hc
    rw [joinNl, List.mem_append, List.mem_cons] at hc
    rcases hc with hc | hc | hc
    · exact Or.inl ⟨s, List.mem_cons_self _ _, hc⟩
    · exact Or.inr hc
    · rcases ih c hc with ⟨t, ht, hct⟩ | hnl
      · exact Or.inl ⟨t, List.mem_cons_of_mem _ ht, hct⟩
      · exact Or.inr hnl

theorem parse_src_file_joinNl :
    ∀ segs : List (List Char), (∀ t ∈ segs, goodSeg t) →
      parse_src_file (joinNl segs) = joinNl segs := by
  intro segs hgood
  rcases segs with _ | ⟨s, ss⟩
  · rfl
  have hchars : ∀ c ∈ joinNl (s :: ss), plainChar c = true := by
    intro c hc
    rcases joinNl_chars _ c hc with ⟨t, ht, hct⟩ | hnl
    · exact ((hgood t ht).2 c hct).1
    · rw [hnl]
      decide
  rw [parse_plain _ hchars, trim_joinNl _ (List.cons_ne_nil _ _) hgood,
    rustLines_intercalate _ (List.cons_ne_nil _ _) hgood]
  rw [List.filter_eq_self.mpr]
  intro t ht
  rcases hg : t with _ | ⟨x, t'⟩
  · exact absurd hg (hgood t ht).1
  · simp

/-- C6 (amended): `parse_src_file` is idempotent on inputs none of
whose characters are the statement separator, the quote, the comment
marker, a space, a tab or a carriage return; on general input a second
normalization can differ (see the counterexample `a;b`). -/
theorem c6_parse_src_file_idempotent_on_plain :
    ∀ l : List Char, (∀ c ∈ l, plainChar c = true) →
      parse_src_file (parse_src_file l) = parse_src_file l := by
  intro l h
  rw [parse_plain l h]
  apply parse_src_file_joinNl
  intro t ht
  rw [List.mem_filter] at ht
  obtain ⟨htmem, htne⟩ := ht
  constructor
  · intro h'
    rw [h'] at htne
    exact absurd htne (by simp)
  · intro c hc
    have := rustLines_chars (trimChars l) t c htmem hc
    exact ⟨h c (mem_trimChars this.1), this.2⟩

/-- Witness for the amended C6 statement at a concrete two-line
declaration file. -/
theorem c6_parse_src_file_idempotent_on_plain_witness :
    parse_src_file (parse_src_file (chars ("pkgver=2.0\npkgrel=1")))
      = parse_src_file (chars ("pkgver=2.0\npkgrel=1")) :=
  c6_parse_src_file_idempotent_on_plain (chars ("pkgver=2.0\npkgrel=1")) (by decide)
